import Mathlib

/-!
Verification of the rss-feed-mail pipeline: a shallow embedding of the
feed-to-delivery core (feed fetching with a cursor watermark, cursor store,
taxonomy resolution, subject generation, retry policy, label/filter
provisioning) together with theorems about the embedded operations.

Timestamps are modelled as natural numbers (milliseconds since epoch); an
absent publish date is `Option.none`.  Network and file-system effects are
modelled by explicit parameters: the parse outcome of a feed URL, the cursor
file contents read from disk, and the current wall-clock time.
-/

namespace RssFeedMail

/-- A parsed feed item (src/utils/rssUtils.js).  `isoDate` is the optional
publish timestamp, `feedTitle`/`feedUrl` are the metadata stamped onto each
item by `getFeedItems`. -/
structure FeedItem where
  title : String
  link : String
  isoDate : Option Nat
  contentSnippet : Option String
  fullContent : Option String
  feedTitle : String
  feedUrl : String
deriving DecidableEq

/-- The date used by the cursor filter: `item.isoDate ? new Date(item.isoDate) : new Date()`
(an undated item counts as the current time `now`). -/
def itemDate (now : Nat) (it : FeedItem) : Nat :=
  it.isoDate.getD now

/-- The sort key of the newest-first sort: `new Date(b.isoDate || 0)`
(an undated item sorts as the epoch). -/
def sortKey (it : FeedItem) : Nat :=
  it.isoDate.getD 0

/-- One insertion step of the newest-first sort of `getFeedItems`. -/
def insertByDateDesc (it : FeedItem) : List FeedItem → List FeedItem
  | [] => [it]
  | x :: xs => if sortKey x < sortKey it then it :: x :: xs else x :: insertByDateDesc it xs

/-- Sort items newest-first by publish date, undated items sorting as the
epoch: `items.sort((a, b) => new Date(b.isoDate || 0) - new Date(a.isoDate || 0))`. -/
def sortByDateDesc (l : List FeedItem) : List FeedItem :=
  l.foldr insertByDateDesc []

/-- The date filter of `getFeedItems`: with a watermark, keep exactly the
items whose `itemDate` is strictly later than it. -/
def filterSince (now : Nat) (sinceDate : Option Nat) (items : List FeedItem) : List FeedItem :=
  match sinceDate with
  | some lastFetchDate => items.filter (fun it => lastFetchDate < itemDate now it)
  | none => items

/-- Stamp the owning feed's title and URL onto an item, as the final `map`
of `getFeedItems` does. -/
def withFeedMeta (title url : String) (it : FeedItem) : FeedItem :=
  { it with feedTitle := title, feedUrl := url }

/-- The value returned by `getFeedItems` on success. -/
structure FeedResult where
  url : String
  title : String
  items : List FeedItem
deriving DecidableEq

/-- Success path of `getFeedItems(feedUrl, sinceDate, fallbackTitle)`
(src/utils/rssUtils.js lines 63-108): the parse outcome is supplied as
`parsedTitle`/`parsedItems`; the items are filtered against the watermark,
sorted newest-first and stamped with the feed metadata. -/
def getFeedItems (now : Nat) (feedUrl : String) (sinceDate : Option Nat)
    (fallbackTitle : String) (parsedTitle : Option String)
    (parsedItems : List FeedItem) : FeedResult :=
  let title := parsedTitle.getD fallbackTitle
  let items := filterSince now sinceDate parsedItems
  let sorted := sortByDateDesc items
  { url := feedUrl, title := title, items := sorted.map (withFeedMeta title feedUrl) }

/-! ### Cursor store (src/config.js) -/

/-- The cursor file contents: feed URL keyed to the watermark timestamp,
in file order. -/
abbrev Cursor := List (String × Nat)

/-- Association-list lookup, modelling a JS object property read. -/
def lookupKey {β : Type} : List (String × β) → String → Option β
  | [], _ => none
  | (k, v) :: rest, key => if k = key then some v else lookupKey rest key

/-- Association-list update, modelling a JS object property assignment
(replaces in place, appends when absent). -/
def setKey {β : Type} : List (String × β) → String → β → List (String × β)
  | [], key, v => [(key, v)]
  | (k, w) :: rest, key, v =>
    if k = key then (key, v) :: rest else (k, w) :: setKey rest key v

/-- One feed's entry in the per-run results map. -/
structure ResultEntry where
  title : String
  items : List FeedItem
deriving DecidableEq

/-- The per-run results map, keyed by feed URL. -/
abbrev FeedResults := List (String × ResultEntry)

/-- One iteration of the `updateCursor` loop: a feed with at least one item
has its entry set to the first (newest-sorted) item's date, defaulting to the
current time; a feed with no items leaves the cursor untouched. -/
def cursorAdvance (now : Nat) (c : Cursor) (url : String) (r : ResultEntry) : Cursor :=
  match r.items with
  | [] => c
  | latestItem :: _ => setKey c url (latestItem.isoDate.getD now)

/-- Embeds `updateCursor(feedResults)` (src/config.js lines 121-144): re-reads the
cursor from disk (`diskCursor`), advances the entry of every feed with items
in this run's results, and returns the mapping written back to the file. -/
def updateCursor (now : Nat) (diskCursor : Cursor) (feedResults : FeedResults) : Cursor :=
  feedResults.foldl (fun c e => cursorAdvance now c e.1 e.2) diskCursor

/-! ### Association-list lemmas -/

theorem lookup_setKey_self {β : Type} (l : List (String × β)) (k : String) (v : β) :
    lookupKey (setKey l k v) k = some v := by
  induction l with
  | nil => simp [setKey, lookupKey]
  | cons hd tl ih =>
    obtain ⟨k0, v0⟩ := hd
    by_cases h : k0 = k
    · simp [setKey, h, lookupKey]
    · simp [setKey, h, lookupKey, ih]

theorem lookup_setKey_ne {β : Type} (l : List (String × β)) (k key : String) (v : β)
    (h : k ≠ key) : lookupKey (setKey l key v) k = lookupKey l k := by
  induction l with
  | nil => simp [setKey, lookupKey, Ne.symm h]
  | cons hd tl ih =>
    obtain ⟨k0, v0⟩ := hd
    by_cases h0 : k0 = key
    · subst h0
      simp [setKey, lookupKey, Ne.symm h]
    · simp only [setKey, if_neg h0, lookupKey]
      by_cases h1 : k0 = k <;> simp [h1, ih]

theorem mem_setKey {β : Type} (l : List (String × β)) (key : String) (v : β)
    (p : String × β) : p ∈ setKey l key v → p = (key, v) ∨ p ∈ l := by
  induction l with
  | nil => intro h; simpa [setKey] using h
  | cons hd tl ih =>
    obtain ⟨k0, v0⟩ := hd
    intro h
    by_cases h0 : k0 = key
    · simp only [setKey, if_pos h0] at h
      rcases List.mem_cons.mp h with h | h
      · exact Or.inl h
      · exact Or.inr (List.mem_cons_of_mem _ h)
    · simp only [setKey, if_neg h0] at h
      rcases List.mem_cons.mp h with h | h
      · exact Or.inr (by simp [h])
      · rcases ih h with h' | h'
        · exact Or.inl h'
        · exact Or.inr (List.mem_cons_of_mem _ h')

theorem keys_setKey_mem {β : Type} (l : List (String × β)) (key : String) (v : β) :
    key ∈ l.map Prod.fst → (setKey l key v).map Prod.fst = l.map Prod.fst := by
  induction l with
  | nil => intro h; simp at h
  | cons hd tl ih =>
    obtain ⟨k0, v0⟩ := hd
    intro h
    by_cases h0 : k0 = key
    · simp [setKey, h0]
    · have htl : key ∈ tl.map Prod.fst := by
        simpa [h0, Ne.symm h0] using h
      simp [setKey, h0, ih htl]

theorem keys_setKey_not_mem {β : Type} (l : List (String × β)) (key : String) (v : β) :
    key ∉ l.map Prod.fst → (setKey l key v).map Prod.fst = l.map Prod.fst ++ [key] := by
  induction l with
  | nil => intro _; simp [setKey]
  | cons hd tl ih =>
    obtain ⟨k0, v0⟩ := hd
    intro h
    have h0 : k0 ≠ key := by
      intro hk; exact h (by simp [hk])
    have htl : key ∉ tl.map Prod.fst := by
      intro hk; exact h (by simp [hk])
    simp [setKey, h0, ih htl]

theorem keys_setKey_nodup {β : Type} (l : List (String × β)) (key : String) (v : β)
    (h : (l.map Prod.fst).Nodup) : ((setKey l key v).map Prod.fst).Nodup := by
  by_cases hm : key ∈ l.map Prod.fst
  · rw [keys_setKey_mem l key v hm]; exact h
  · rw [keys_setKey_not_mem l key v hm]
    have hd : (l.map Prod.fst).Disjoint [key] := by
      intro a ha hb
      rw [List.mem_singleton] at hb
      exact hm (hb ▸ ha)
    refine List.Nodup.append h (List.nodup_singleton key) hd

/-! ### Sort lemmas -/

theorem mem_insertByDateDesc (it x : FeedItem) (l : List FeedItem) :
    x ∈ insertByDateDesc it l ↔ x = it ∨ x ∈ l := by
  induction l with
  | nil => simp [insertByDateDesc]
  | cons hd tl ih =>
    by_cases h : sortKey hd < sortKey it
    · simp [insertByDateDesc, h]
    · simp only [insertByDateDesc, if_neg h, List.mem_cons, ih]
      tauto

theorem mem_sortByDateDesc (x : FeedItem) (l : List FeedItem) :
    x ∈ sortByDateDesc l ↔ x ∈ l := by
  induction l with
  | nil => simp [sortByDateDesc]
  | cons hd tl ih =>
    simp only [sortByDateDesc, List.foldr_cons] at *
    rw [mem_insertByDateDesc, ih, List.mem_cons]

theorem pairwise_insertByDateDesc (it : FeedItem) (l : List FeedItem)
    (h : l.Pairwise (fun a b => sortKey b ≤ sortKey a)) :
    (insertByDateDesc it l).Pairwise (fun a b => sortKey b ≤ sortKey a) := by
  induction l with
  | nil => simp [insertByDateDesc]
  | cons hd tl ih =>
    rcases List.pairwise_cons.mp h with ⟨hhd, htl⟩
    by_cases hlt : sortKey hd < sortKey it
    · rw [insertByDateDesc, if_pos hlt]
      refine List.pairwise_cons.mpr ⟨?_, h⟩
      intro y hy
      rcases List.mem_cons.mp hy with hy | hy
      · exact hy ▸ Nat.le_of_lt hlt
      · exact Nat.le_trans (hhd y hy) (Nat.le_of_lt hlt)
    · rw [insertByDateDesc, if_neg hlt]
      refine List.pairwise_cons.mpr ⟨?_, ih htl⟩
      intro y hy
      rcases (mem_insertByDateDesc it y tl).mp hy with hy | hy
      · exact hy ▸ Nat.le_of_not_lt hlt
      · exact hhd y hy

theorem pairwise_sortByDateDesc (l : List FeedItem) :
    (sortByDateDesc l).Pairwise (fun a b => sortKey b ≤ sortKey a) := by
  induction l with
  | nil => simp [sortByDateDesc]
  | cons hd tl ih => exact pairwise_insertByDateDesc hd _ ih

/-- The first item of the sorted list carries a maximal sort key. -/
theorem sortByDateDesc_head_max (l : List FeedItem) (it : FeedItem) (rest : List FeedItem)
    (h : sortByDateDesc l = it :: rest) :
    ∀ y ∈ sortByDateDesc l, sortKey y ≤ sortKey it := by
  have hp := pairwise_sortByDateDesc l
  rw [h] at hp ⊢
  rcases List.pairwise_cons.mp hp with ⟨hhd, _⟩
  intro y hy
  rcases List.mem_cons.mp hy with hy | hy
  · exact hy ▸ Nat.le_refl _
  · exact hhd y hy

/-! ### updateCursor lemmas -/

theorem updateCursor_lookup_of_not_mem (now : Nat) (results : FeedResults) (c : Cursor)
    (url : String) (h : url ∉ results.map Prod.fst) :
    lookupKey (updateCursor now c results) url = lookupKey c url := by
  induction results generalizing c with
  | nil => simp [updateCursor]
  | cons hd tl ih =>
    obtain ⟨k, e⟩ := hd
    have hk : k ≠ url := by
      intro hk; exact h (by simp [hk])
    have htl : url ∉ tl.map Prod.fst := by
      intro hm; exact h (by simp [hm])
    show lookupKey (updateCursor now (cursorAdvance now c k e) tl) url = lookupKey c url
    rw [ih (cursorAdvance now c k e) htl]
    cases hitems : e.items with
    | nil => simp [cursorAdvance, hitems]
    | cons it rest =>
      simp only [cursorAdvance, hitems]
      exact lookup_setKey_ne c url k _ (fun hh => hk hh.symm)

/-- After `updateCursor`, a feed with at least one item in the results map
(whose URL keys are distinct, as JS object keys are) has its cursor entry set
to the first item's date, defaulting to the update-time clock. -/
theorem updateCursor_lookup_of_mem (now : Nat) (results : FeedResults) (c : Cursor)
    (url : String) (e : ResultEntry) (it : FeedItem) (rest : List FeedItem)
    (hnodup : (results.map Prod.fst).Nodup) (hmem : (url, e) ∈ results)
    (hitems : e.items = it :: rest) :
    lookupKey (updateCursor now c results) url = some (it.isoDate.getD now) := by
  induction results generalizing c with
  | nil => simp at hmem
  | cons hd tl ih =>
    obtain ⟨k, e'⟩ := hd
    have hnodup' : k ∉ tl.map Prod.fst ∧ (tl.map Prod.fst).Nodup := by
      rw [List.map_cons, List.nodup_cons] at hnodup
      exact hnodup
    rcases List.mem_cons.mp hmem with heq | hmem'
    · injection heq with hk he
      subst hk; subst he
      show lookupKey (updateCursor now (cursorAdvance now c url e) tl) url = _
      rw [updateCursor_lookup_of_not_mem now tl _ url hnodup'.1]
      simp only [cursorAdvance, hitems]
      exact lookup_setKey_self c url _
    · exact ih (cursorAdvance now c k e') hnodup'.2 hmem'

/-! ### Feed configuration tree and taxonomy resolver (src/utils/feedUtils.js) -/

/-- A feed reference of the configuration document. -/
structure FeedRef where
  title : String
  url : String
deriving DecidableEq

mutual
/-- A group node of the nested configuration tree: its name, its feed list
and its subgroup list. -/
inductive GroupNode where
  | node (name : String) (feeds : List FeedRef) (subgroups : GroupForest)
/-- A list of sibling group nodes, in declaration order. -/
inductive GroupForest where
  | nil
  | cons (g : GroupNode) (rest : GroupForest)
end

/-- The configuration document: `{ groups: [...] }`. -/
structure FeedConfig where
  groups : GroupForest

/-- Split accumulator for `splitOnChar`, the embedding of the JS
single-character `String.split`. -/
def splitOnCharAux (c : Char) : List Char → List Char → List String
  | [], acc => [⟨acc.reverse⟩]
  | x :: xs, acc =>
    if x = c then ⟨acc.reverse⟩ :: splitOnCharAux c xs []
    else splitOnCharAux c xs (x :: acc)

/-- Embeds `s.split(c)` for a one-character separator: the separated segments in
order, empty segments preserved. -/
def splitOnChar (c : Char) (s : String) : List String :=
  splitOnCharAux c s.data []

/-- Embeds `s.toLowerCase()` on the character list. -/
def lowerAscii (s : String) : String :=
  ⟨s.data.map Char.toLower⟩

/-- Embeds `s.startsWith(p)` on the character lists. -/
def strStartsWith (s p : String) : Bool :=
  p.data.isPrefixOf s.data

/-- Embeds `s.endsWith(p)` on the character lists. -/
def strEndsWith (s p : String) : Bool :=
  p.data.isSuffixOf s.data

/-- Embeds `parentPath ? parentPath + "/" + name : name`. -/
def childPath (parentPath name : String) : String :=
  if parentPath = "" then name else parentPath ++ "/" ++ name

/-- Embeds `extractFeeds(feedConfig, parentPath)`: depth-first flattening of the
group tree into (feed, groupPath) records, feeds of a group before its
subgroups, siblings in declaration order. -/
def extractFeeds : String → GroupForest → List (FeedRef × String)
  | _, .nil => []
  | parentPath, .cons (.node name feeds subs) rest =>
    let groupPath := childPath parentPath name
    feeds.map (fun f => (f, groupPath))
      ++ extractFeeds groupPath subs
      ++ extractFeeds parentPath rest

/-- The recursive search of `findGroupPathForFeed`: first-match depth-first,
a group's own feed list checked before its subgroups, subgroups before the
next sibling. -/
def searchGroups (feedUrl : String) : String → GroupForest → Option String
  | _, .nil => none
  | parentPath, .cons (.node name feeds subs) rest =>
    let currentPath := childPath parentPath name
    if feeds.any (fun f => f.url = feedUrl) then some currentPath
    else
      match searchGroups feedUrl currentPath subs with
      | some p => some p
      | none => searchGroups feedUrl parentPath rest

/-- Embeds `findGroupPathForFeed(feedUrl, feedConfig)`: the found path, or the
sentinel `"Uncategorized"` when the URL appears in no group (a falsy found
path also degrades to the sentinel, as `result.path || UNCATEGORIZED` does). -/
def findGroupPathForFeed (feedUrl : String) (config : FeedConfig) : String :=
  match searchGroups feedUrl "" config.groups with
  | some p => if p = "" then "Uncategorized" else p
  | none => "Uncategorized"

/-- Embeds the subject pattern helper of feedUtils.js: one path segment wrapped in brackets. -/
def groupBracket (group : String) : String :=
  "[" ++ group ++ "]"

/-- Embeds `formatGroupHierarchyForSubject(groupPath)`: empty or sentinel paths map
to `"[Uncategorized]"`, otherwise each `/`-segment is bracketed and the
brackets concatenated with no separator. -/
def formatGroupHierarchyForSubject (groupPath : String) : String :=
  if groupPath = "" ∨ groupPath = "Uncategorized" then groupBracket "Uncategorized"
  else String.join ((splitOnChar '/' groupPath).map groupBracket)

/-! ### Feed fetching (src/feedFetcher.js) -/

/-- One step of the `fetchFeeds` result assembly: a failed fetch (`parse`
returns `none`) or an empty filtered item list contributes nothing; otherwise
the result is stored under the feed's URL. -/
def fetchStep (now : Nat) (cursor : Cursor)
    (parse : String → Option (Option String × List FeedItem))
    (results : FeedResults) (fr : FeedRef × String) : FeedResults :=
  match parse fr.1.url with
  | none => results
  | some (pt, pis) =>
    let r := getFeedItems now fr.1.url (lookupKey cursor fr.1.url) fr.1.title pt pis
    if r.items.length > 0 then setKey results r.url { title := r.title, items := r.items }
    else results

/-- Embeds `fetchFeeds(feedConfig, cursor)`: fetch every flattened feed with the
feed's stored watermark as the since-date and collect the feeds that returned
at least one item into a URL-keyed results map. -/
def fetchFeeds (now : Nat) (config : FeedConfig) (cursor : Cursor)
    (parse : String → Option (Option String × List FeedItem)) : FeedResults :=
  (extractFeeds "" config.groups).foldl (fetchStep now cursor parse) []

/-! ### Delivery pipeline orchestration (src/index.js) -/

/-- A deliverable item: the feed item, its rendered subject and its resolved
group path, as built by `extractItemsFromFeeds`. -/
structure DeliverableItem where
  item : FeedItem
  subject : String
  groupPath : String
deriving DecidableEq

/-- The optional content-enrichment step of `extractItemsFromFeeds`: with the
flag on, an item whose snippet is under 30 words has `fullContent` filled
from the article page fetch (`fetchFull`). -/
def enrichItem (fetchFullContentFlag : Bool) (fetchFull : String → Option String)
    (it : FeedItem) : FeedItem :=
  match fetchFullContentFlag, it.contentSnippet with
  | true, some snip =>
    if (splitOnChar ' ' snip).length < 30 then { it with fullContent := fetchFull it.link }
    else it
  | _, _ => it

/-- The per-item body of the `extractItemsFromFeeds` loop: optional
enrichment, then the subject `"{bracketed hierarchy} {feed title}: {item
title}"` for the owning feed's resolved group path. -/
def mkDeliverable (config : FeedConfig) (fetchFullContentFlag : Bool)
    (fetchFull : String → Option String) (feedUrl : String) (item0 : FeedItem) :
    DeliverableItem :=
  let groupPath := findGroupPathForFeed feedUrl config
  let item := enrichItem fetchFullContentFlag fetchFull item0
  let hierarchy := formatGroupHierarchyForSubject groupPath
  { item := item
    subject := hierarchy ++ " " ++ item.feedTitle ++ ": " ++ item.title
    groupPath := groupPath }

/-- Embeds `extractItemsFromFeeds(feedResults, feedConfig, flag)`: for every item of
every feed with items, resolve the group path, optionally enrich, and render
the subject line. -/
def extractItemsFromFeeds (feedResults : FeedResults) (config : FeedConfig)
    (fetchFullContentFlag : Bool) (fetchFull : String → Option String) :
    List DeliverableItem :=
  feedResults.foldl (fun items e =>
    if e.2.items.isEmpty then items
    else items ++ e.2.items.map (mkDeliverable config fetchFullContentFlag fetchFull e.1)) []

/-- Outcome of a normal delivery run, restricted to its cursor effects. -/
structure RunOutcome where
  finalCursor : Cursor
  cursorWrites : Nat

/-- The cursor-relevant control flow of `main()` on a normal delivery run
(no mode flag): fetch, deliver, then call `updateCursor` exactly when the
results map is non-empty; `updateCursor` performs the single file write. -/
def runNormalDelivery (fetchNow updateNow : Nat) (config : FeedConfig) (diskCursor : Cursor)
    (parse : String → Option (Option String × List FeedItem)) : RunOutcome :=
  let feedResults := fetchFeeds fetchNow config diskCursor parse
  if feedResults.length > 0 then
    { finalCursor := updateCursor updateNow diskCursor feedResults, cursorWrites := 1 }
  else
    { finalCursor := diskCursor, cursorWrites := 0 }

/-- Observable events of the `--update-cursor-only` mode. -/
inductive CursorOnlyEvent where
  | confirmationPrompt
  | cursorWrite
deriving DecidableEq

/-- Embeds `promptForConfirmation`: resolves true exactly when the lowercased answer
is `"y"` or `"yes"` (src/utils/cliUtils.js lines 34-46). -/
def confirms (answer : String) : Bool :=
  lowerAscii answer = "y" || lowerAscii answer = "yes"

/-- Embeds `handleCursorOnlyUpdate(feedResults, cursorExists)` (src/index.js lines
72-90), with the interactive answer supplied as a parameter: returns the
ordered event trace and the resulting cursor file contents. -/
def handleCursorOnlyUpdate (now : Nat) (feedResults : FeedResults) (diskCursor : Cursor)
    (cursorExists : Bool) (answer : String) : List CursorOnlyEvent × Cursor :=
  if feedResults.length > 0 then
    if cursorExists then
      if confirms answer then
        ([.confirmationPrompt, .cursorWrite], updateCursor now diskCursor feedResults)
      else
        ([.confirmationPrompt], diskCursor)
    else ([.cursorWrite], updateCursor now diskCursor feedResults)
  else ([], diskCursor)

/-! ### Retry policy (src/utils/retryUtils.js) -/

/-- Observable trace of one `retryOperation` call: its outcome, how many
times the operation was invoked, and the backoff delays slept, in order. -/
structure RetryTrace (E A : Type) where
  result : Except E A
  attempts : Nat
  delays : List Nat

/-- The attempt loop of `retryOperation`: attempt numbers run from `attempt`
to `maxRetries`; every attempt after the first is preceded by a delay of
`initialDelay * 2 ^ (attempt - 1)`; a failure continues the loop exactly when
attempts remain and the error is classified retryable, and is rethrown
otherwise.  `operation n` is the outcome of the attempt numbered `n`. -/
def retryLoop {E A : Type} (operation : Nat → Except E A) (maxRetries initialDelay : Nat)
    (isRetryable : E → Bool) (attempt : Nat) : RetryTrace E A :=
  let ds : List Nat := if attempt > 0 then [initialDelay * 2 ^ (attempt - 1)] else []
  match operation attempt with
  | .ok a => { result := .ok a, attempts := 1, delays := ds }
  | .error e =>
    if h : attempt < maxRetries ∧ isRetryable e = true then
      let t := retryLoop operation maxRetries initialDelay isRetryable (attempt + 1)
      { result := t.result, attempts := t.attempts + 1, delays := ds ++ t.delays }
    else { result := .error e, attempts := 1, delays := ds }
termination_by maxRetries - attempt
decreasing_by
  exact Nat.sub_lt_sub_left h.1 (Nat.lt_succ_self attempt)

/-- Embeds `retryOperation(operation, maxRetries, initialDelay, isRetryable)`:
the loop started at attempt 0. -/
def retryOperation {E A : Type} (operation : Nat → Except E A) (maxRetries initialDelay : Nat)
    (isRetryable : E → Bool) : RetryTrace E A :=
  retryLoop operation maxRetries initialDelay isRetryable 0

/-- An SMTP error carrying an optional `responseCode`. -/
structure EmailError where
  responseCode : Option Nat
deriving DecidableEq

/-- Embeds `isTemporaryEmailError(error)`: retryable exactly when the error carries
a `responseCode` with `400 <= code < 500`. -/
def isTemporaryEmailError (error : EmailError) : Bool :=
  match error.responseCode with
  | none => false
  | some code => 400 ≤ code && code < 500

/-! ### Certificate-error retry of getFeedItems (src/utils/rssUtils.js lines 109-118) -/

/-- Outcome of one `parser.parseURL` call inside `getFeedItems`. -/
inductive ParseOutcome where
  | success (parsedTitle : Option String) (parsedItems : List FeedItem)
  | certAltNameError
  | otherFailure

/-- The catch-and-retry driver of `getFeedItems`: a certificate alt-name
error re-invokes `getFeedItems` (with validation relaxed) with no retry
counter; any other failure is rethrown.  `outcomes n` is the outcome of the
`n`-th parse call; `fuel` bounds the modelled recursion depth, and a `none`
result means every explored call raised the certificate error, i.e. the
recursion did not return within the given depth. -/
def getFeedItemsRetry (now : Nat) (feedUrl : String) (sinceDate : Option Nat)
    (fallbackTitle : String) (outcomes : Nat → ParseOutcome) :
    Nat → Nat → Option (Except Unit FeedResult × Nat)
  | 0, _ => none
  | fuel + 1, callIdx =>
    match outcomes callIdx with
    | .success pt pis =>
      some (.ok (getFeedItems now feedUrl sinceDate fallbackTitle pt pis), callIdx + 1)
    | .certAltNameError =>
      getFeedItemsRetry now feedUrl sinceDate fallbackTitle outcomes fuel (callIdx + 1)
    | .otherFailure => some (.error (), callIdx + 1)

/-! ### Label and filter provisioning (src/gmailLabels.js) -/

/-- One provisioned label: its full path and whether it is a feed-level
(leaf feed) label as opposed to a group label. -/
structure LabelEntry where
  path : String
  isFeed : Bool
deriving DecidableEq

/-- Embeds `createGroupLabels(gmail, groups, parentPath, labelMap)`: for every group
under the parent path, a group label, then one feed label per feed (named by
the feed's resolved title `titleOf url fallback`), then the subgroups. -/
def createGroupLabels (titleOf : String → String → String) :
    String → GroupForest → List LabelEntry
  | _, .nil => []
  | parentPath, .cons (.node name feeds subs) rest =>
    let labelPath := parentPath ++ "/" ++ name
    ({ path := labelPath, isFeed := false }
        :: feeds.map (fun f => { path := labelPath ++ "/" ++ titleOf f.url f.title, isFeed := true }))
      ++ createGroupLabels titleOf labelPath subs
      ++ createGroupLabels titleOf parentPath rest

/-- The label map built by `createLabels(feedConfig)`: group and feed labels
rooted at `"RSS Feeds"` (the root label itself is ensured but not added to
the map). -/
def labelMapOf (titleOf : String → String → String) (config : FeedConfig) : List LabelEntry :=
  createGroupLabels titleOf "RSS Feeds" config.groups

/-- A created Gmail filter rule: its subject criterion (absent for the
sender-only rule), its from criterion, the label path it applies, and whether
it archives (removes INBOX). -/
structure GmailFilter where
  subjectCriterion : Option String
  fromCriterion : String
  appliesLabel : String
  removesInbox : Bool
deriving DecidableEq

/-- Embeds `labelPath.split('/').filter(part => part !== 'RSS Feeds')`. -/
def stripRoot (labelPath : String) : List String :=
  (splitOnChar '/' labelPath).filter (fun part => part ≠ "RSS Feeds")

/-- The leaf test of `createFeedFilters`: a path is a parent when some other
known path extends it past a `/`. -/
def isParentPath (labelPaths : List String) (labelPath : String) : Bool :=
  labelPaths.any (fun p => p ≠ labelPath && strStartsWith p (labelPath ++ "/"))

/-- The leaf-rule subject of `createFeedFilters`: every part but the last
bracketed and concatenated, then `": "` and the feed title. -/
def feedFilterSubject (parts : List String) : String :=
  String.join (parts.dropLast.map groupBracket) ++ ": " ++ (parts.getLast?.getD "")

/-- Embeds `createFeedFilters(gmail, labelMap, existingFilters)`: one rule per leaf
feed-level path (skipping the root, parents of other paths, and single-part
paths), unless a filter with the same subject already exists; the rule
applies that path's label and removes INBOX. -/
def createFeedFilters (fromEmail : String) (labelPaths : List String)
    (existing : List String) : List GmailFilter :=
  labelPaths.foldl (fun acc labelPath =>
    let parts := stripRoot labelPath
    if parts.isEmpty then acc
    else if isParentPath labelPaths labelPath then acc
    else if parts.length < 2 then acc
    else
      let subjectPattern := feedFilterSubject parts
      if existing.contains subjectPattern then acc
      else acc ++ [{ subjectCriterion := some subjectPattern, fromCriterion := fromEmail,
                     appliesLabel := labelPath, removesInbox := true }]) []

/-- The group test of `createGroupFilters`: some other known path extends
this one past a `/` and does not itself end with a `/`. -/
def hasChildPath (labelPaths : List String) (path : String) : Bool :=
  labelPaths.any (fun other =>
    other ≠ path && strStartsWith other (path ++ "/") && !(strEndsWith other "/"))

/-- The group-rule subject: every remaining part bracketed, no title suffix. -/
def groupFilterSubject (parts : List String) : String :=
  String.join (parts.map groupBracket)

/-- One iteration of the `createGroupFilters` loop over a qualifying group
path: skip the root (no parts left) and subjects that already have a filter;
otherwise create the non-archiving rule. -/
def groupFilterStep (fromEmail : String) (existing : List String)
    (acc : List GmailFilter) (groupPath : String) : List GmailFilter :=
  let parts := stripRoot groupPath
  if parts.isEmpty then acc
  else
    let subjectPattern := groupFilterSubject parts
    if existing.contains subjectPattern then acc
    else acc ++ [{ subjectCriterion := some subjectPattern, fromCriterion := fromEmail,
                   appliesLabel := groupPath, removesInbox := false }]

/-- Embeds `createGroupFilters(gmail, labelMap, existingFilters)`: one rule per
label path that has a child path (skipping the root), unless a filter with
the same subject already exists; the rule applies that path's label and does
not remove INBOX. -/
def createGroupFilters (fromEmail : String) (labelPaths : List String)
    (existing : List String) : List GmailFilter :=
  (labelPaths.filter (hasChildPath labelPaths)).foldl (groupFilterStep fromEmail existing) []

/-- Spec-side predicate (claim C8): the path has at least one descendant
feed-level label in the map, directly or transitively. -/
def hasDescendantFeedLabel (labelMap : List LabelEntry) (path : String) : Bool :=
  labelMap.any (fun e => e.isFeed && strStartsWith e.path (path ++ "/"))

/-! ### Retry-policy lemmas -/

theorem retryLoop_all_retryable {E A : Type} (op : Nat → Except E A) (m d : Nat)
    (isR : E → Bool) (hop : ∀ n, n ≤ m → ∃ e, op n = .error e ∧ isR e = true) :
    ∀ (r a : Nat), m - a = r → 1 ≤ a → a ≤ m →
      (retryLoop op m d isR a).attempts = m - a + 1 ∧
      (retryLoop op m d isR a).delays
        = (List.range' (a - 1) (m - a + 1)).map (fun k => d * 2 ^ k) ∧
      ∃ e, op m = .error e ∧ (retryLoop op m d isR a).result = .error e := by
  intro r
  induction r with
  | zero =>
    intro a hr h1 hm
    have ha : a = m := by omega
    subst ha
    obtain ⟨e, he, hre⟩ := hop a (Nat.le_refl a)
    rw [retryLoop]
    simp only [he]
    rw [dif_neg (by simp [Nat.lt_irrefl])]
    refine ⟨by simp [Nat.sub_self], ?_, e, rfl, rfl⟩
    have hpos : a > 0 := h1
    show (if a > 0 then [d * 2 ^ (a - 1)] else []) = _
    rw [if_pos hpos]
    simp [Nat.sub_self, List.range'_one]
  | succ r ih =>
    intro a hr h1 hm
    have halt : a < m := by omega
    obtain ⟨e, he, hre⟩ := hop a (Nat.le_of_lt halt)
    obtain ⟨iha, ihd, e', he', ihr⟩ := ih (a + 1) (by omega) (by omega) (by omega)
    rw [retryLoop]
    simp only [he]
    rw [dif_pos ⟨halt, hre⟩]
    refine ⟨by simp [iha]; omega, ?_, e', he', by simpa using ihr⟩
    have hpos : a > 0 := h1
    have hds : (if a > 0 then [d * 2 ^ (a - 1)] else []) = [d * 2 ^ (a - 1)] := by
      rw [if_pos hpos]
    simp only [ihd, hds, Nat.add_sub_cancel]
    have hn : m - a + 1 = (m - (a + 1) + 1) + 1 := by omega
    have hsucc : a - 1 + 1 = a := by omega
    rw [hn]
    conv_rhs => rw [List.range'_succ, hsucc]
    simp

/-- Claim C3: with maxRetries `m`, an operation every invocation of which
fails with a retryable-classified SMTP error (responseCode in [400, 500)) is
attempted exactly `m + 1` times, the k-th retry preceded by a backoff delay
of `initialDelay * 2 ^ (k - 1)`, and the last error is rethrown; an
operation whose first invocation fails with a non-retryable error is
attempted exactly once with no delay, that error being rethrown. -/
theorem retryOperation_attempt_boundary {A : Type}
    (op : Nat → Except EmailError A) (m d : Nat) :
    ((∀ n, n ≤ m → ∃ e, op n = .error e ∧ isTemporaryEmailError e = true) →
      (retryOperation op m d isTemporaryEmailError).attempts = m + 1 ∧
      (retryOperation op m d isTemporaryEmailError).delays
        = (List.range m).map (fun k => d * 2 ^ k) ∧
      ∃ e, op m = .error e ∧
        (retryOperation op m d isTemporaryEmailError).result = .error e)
    ∧ (∀ e, op 0 = .error e → isTemporaryEmailError e = false →
      (retryOperation op m d isTemporaryEmailError).attempts = 1 ∧
      (retryOperation op m d isTemporaryEmailError).delays = [] ∧
      (retryOperation op m d isTemporaryEmailError).result = .error e) := by
  constructor
  · intro hop
    obtain ⟨e0, he0, hre0⟩ := hop 0 (Nat.zero_le m)
    rcases Nat.eq_zero_or_pos m with hm | hm
    · subst hm
      rw [retryOperation, retryLoop]
      simp only [he0]
      rw [dif_neg (by simp [Nat.lt_irrefl])]
      exact ⟨rfl, by simp, e0, rfl, rfl⟩
    · obtain ⟨iha, ihd, e', he', ihr⟩ :=
        retryLoop_all_retryable op m d isTemporaryEmailError hop (m - 1) 1 rfl
          (Nat.le_refl 1) hm
      rw [retryOperation, retryLoop]
      simp only [he0]
      rw [dif_pos ⟨hm, hre0⟩]
      refine ⟨by simp [iha]; omega, ?_, e', he', by simpa using ihr⟩
      simp only [ihd]
      have h1 : m - 1 + 1 = m := by omega
      simp [h1, List.range_eq_range']
  · intro e he hre
    rw [retryOperation, retryLoop]
    simp only [he]
    rw [dif_neg (by simp [hre])]
    exact ⟨rfl, by simp, rfl⟩

/-- Concrete instance of claim C3: an operation always failing with SMTP
code 450 under maxRetries 2 and initial delay 5 is attempted 3 times with
delays 5 then 10; one always failing with code 550 is attempted once with
no delay. -/
theorem retryOperation_attempt_boundary_witness :
    ((retryOperation (fun _ => (.error ⟨some 450⟩ : Except EmailError Nat)) 2 5
        isTemporaryEmailError).attempts = 2 + 1 ∧
      (retryOperation (fun _ => (.error ⟨some 450⟩ : Except EmailError Nat)) 2 5
        isTemporaryEmailError).delays = (List.range 2).map (fun k => 5 * 2 ^ k) ∧
      ∃ e, (fun _ => (.error ⟨some 450⟩ : Except EmailError Nat)) 2 = .error e ∧
        (retryOperation (fun _ => (.error ⟨some 450⟩ : Except EmailError Nat)) 2 5
          isTemporaryEmailError).result = .error e)
    ∧ ((retryOperation (fun _ => (.error ⟨some 550⟩ : Except EmailError Nat)) 2 5
        isTemporaryEmailError).attempts = 1 ∧
      (retryOperation (fun _ => (.error ⟨some 550⟩ : Except EmailError Nat)) 2 5
        isTemporaryEmailError).delays = [] ∧
      (retryOperation (fun _ => (.error ⟨some 550⟩ : Except EmailError Nat)) 2 5
        isTemporaryEmailError).result = .error ⟨some 550⟩) :=
  ⟨(retryOperation_attempt_boundary (fun _ => .error ⟨some 450⟩) 2 5).1
      (fun n _ => ⟨⟨some 450⟩, rfl, by decide⟩),
    (retryOperation_attempt_boundary (fun _ => .error ⟨some 550⟩) 2 5).2
      ⟨some 550⟩ rfl (by decide)⟩

/-! ### Cursor frame property (claim C10) -/

/-- Claim C10: `updateCursor` reads the cursor from disk immediately before
advancing (here the `disk` argument), and a feed URL that is absent from the
results map, or present only with an empty item list, keeps exactly the entry
just read from disk: it is never modified or removed. -/
theorem updateCursor_preserves_absent_feeds (now : Nat) (disk : Cursor)
    (results : FeedResults) (url : String)
    (h : ∀ e : ResultEntry, (url, e) ∈ results → e.items = []) :
    lookupKey (updateCursor now disk results) url = lookupKey disk url := by
  induction results generalizing disk with
  | nil => rfl
  | cons hd tl ih =>
    obtain ⟨k, e⟩ := hd
    show lookupKey (updateCursor now (cursorAdvance now disk k e) tl) url = _
    have htl : ∀ e' : ResultEntry, (url, e') ∈ tl → e'.items = [] := by
      intro e' he'
      exact h e' (List.mem_cons_of_mem _ he')
    rw [ih (cursorAdvance now disk k e) htl]
    by_cases hk : k = url
    · subst hk
      have : e.items = [] := h e (List.mem_cons_self _ _)
      simp [cursorAdvance, this]
    · cases hitems : e.items with
      | nil => simp [cursorAdvance, hitems]
      | cons it rest =>
        simp only [cursorAdvance, hitems]
        exact lookup_setKey_ne disk url k _ (fun hh => hk hh.symm)

/-- Concrete instance of claim C10: a feed URL absent from the results map
keeps its disk entry across `updateCursor`. -/
theorem updateCursor_preserves_absent_feeds_witness :
    lookupKey (updateCursor 99 [("a", 5)]
        [("b", ⟨"B", [⟨"t", "l", some 7, none, none, "B", "b"⟩]⟩)]) "a"
      = lookupKey [("a", 5)] "a" :=
  updateCursor_preserves_absent_feeds 99 [("a", 5)]
    [("b", ⟨"B", [⟨"t", "l", some 7, none, none, "B", "b"⟩]⟩)] "a"
    (by
      intro e he
      have h1 := List.mem_singleton.mp he
      have h2 : ("a" : String) = "b" := congrArg Prod.fst h1
      exact absurd h2 (by decide))

/-! ### fetchFeeds characterization -/

theorem fetchFeeds_fold_mem (now : Nat) (cursor : Cursor)
    (parse : String → Option (Option String × List FeedItem)) :
    ∀ (l : List (FeedRef × String)) (acc : FeedResults) (url : String) (e : ResultEntry),
      (url, e) ∈ l.foldl (fetchStep now cursor parse) acc →
      (url, e) ∈ acc ∨
        ∃ fb pt pis, parse url = some (pt, pis) ∧
          e.title = pt.getD fb ∧
          e.items = (sortByDateDesc (filterSince now (lookupKey cursor url) pis)).map
              (withFeedMeta (pt.getD fb) url) ∧
          e.items ≠ [] := by
  intro l
  induction l with
  | nil =>
    intro acc url e h
    exact Or.inl h
  | cons fr tl ih =>
    intro acc url e h
    rcases ih (fetchStep now cursor parse acc fr) url e h with hacc | hφ
    · simp only [fetchStep] at hacc
      split at hacc
      · exact Or.inl hacc
      · next pt pis hp =>
        split at hacc
        · next hlen =>
          rcases mem_setKey _ _ _ _ hacc with heq | hmem
          · right
            injection heq with hu he
            subst hu
            refine ⟨fr.1.title, pt, pis, hp, ?_, ?_, ?_⟩
            · rw [he]
              simp [getFeedItems]
            · rw [he]
              simp [getFeedItems]
            · rw [he]
              exact List.ne_nil_of_length_pos hlen
          · exact Or.inl hmem
        · exact Or.inl hacc
    · exact Or.inr hφ

/-- Every entry of the results map built by `fetchFeeds` was produced by
`getFeedItems` for its own URL with that URL's stored watermark, and holds at
least one item. -/
theorem fetchFeeds_entry_spec (now : Nat) (config : FeedConfig) (cursor : Cursor)
    (parse : String → Option (Option String × List FeedItem)) (url : String)
    (e : ResultEntry) (hmem : (url, e) ∈ fetchFeeds now config cursor parse) :
    ∃ fb pt pis, parse url = some (pt, pis) ∧
      e.title = pt.getD fb ∧
      e.items = (sortByDateDesc (filterSince now (lookupKey cursor url) pis)).map
          (withFeedMeta (pt.getD fb) url) ∧
      e.items ≠ [] := by
  rcases fetchFeeds_fold_mem now cursor parse (extractFeeds "" config.groups) [] url e hmem
    with h | h
  · simp at h
  · exact h

/-- The URL keys of the results map built by `fetchFeeds` are distinct. -/
theorem fetchFeeds_keys_nodup (now : Nat) (config : FeedConfig) (cursor : Cursor)
    (parse : String → Option (Option String × List FeedItem)) :
    ((fetchFeeds now config cursor parse).map Prod.fst).Nodup := by
  suffices h : ∀ (l : List (FeedRef × String)) (acc : FeedResults),
      (acc.map Prod.fst).Nodup →
      ((l.foldl (fetchStep now cursor parse) acc).map Prod.fst).Nodup by
    exact h _ [] (by simp)
  intro l
  induction l with
  | nil => intro acc h; exact h
  | cons fr tl ih =>
    intro acc h
    apply ih
    simp only [fetchStep]
    split
    · exact h
    · split
      · exact keys_setKey_nodup _ _ _ h
      · exact h

/-! ### Claim C1: cursor advance to the newest fetched item, monotone -/

/-- Claim C1: after a run, every feed URL present in the results map has its
cursor entry set to the publish date of the first, newest-sorted item of its
result list (defaulting to the update-time clock when that item is undated),
and the new watermark is at least the watermark stored before the run. -/
theorem updateCursor_latest_item_monotone (fetchNow updateNow : Nat)
    (config : FeedConfig) (disk : Cursor)
    (parse : String → Option (Option String × List FeedItem))
    (url : String) (e : ResultEntry)
    (hmem : (url, e) ∈ fetchFeeds fetchNow config disk parse)
    (hclock : fetchNow ≤ updateNow) :
    ∃ it rest, e.items = it :: rest ∧
      lookupKey (updateCursor updateNow disk (fetchFeeds fetchNow config disk parse)) url
        = some (it.isoDate.getD updateNow) ∧
      (∀ y ∈ e.items, sortKey y ≤ sortKey it) ∧
      (∀ T, lookupKey disk url = some T → T ≤ it.isoDate.getD updateNow) := by
  obtain ⟨fb, pt, pis, hparse, htitle, hitems, hne⟩ :=
    fetchFeeds_entry_spec fetchNow config disk parse url e hmem
  cases hsort : sortByDateDesc (filterSince fetchNow (lookupKey disk url) pis) with
  | nil =>
    exact absurd (by rw [hitems, hsort]; rfl) hne
  | cons x xs =>
    refine ⟨withFeedMeta (pt.getD fb) url x, xs.map (withFeedMeta (pt.getD fb) url),
      ?_, ?_, ?_, ?_⟩
    · rw [hitems, hsort]
      rfl
    · exact updateCursor_lookup_of_mem updateNow _ disk url e _ _
        (fetchFeeds_keys_nodup fetchNow config disk parse) hmem
        (by rw [hitems, hsort]; rfl)
    · intro y hy
      rw [hitems, hsort] at hy
      rcases List.mem_map.mp hy with ⟨x', hx', hfx⟩
      have hx'mem : x' ∈ sortByDateDesc (filterSince fetchNow (lookupKey disk url) pis) := by
        rw [hsort]; exact hx'
      have hle := sortByDateDesc_head_max _ x xs hsort x' hx'mem
      have h1 : sortKey y = sortKey x' := by rw [← hfx]; rfl
      have h2 : sortKey (withFeedMeta (pt.getD fb) url x) = sortKey x := rfl
      rw [h1, h2]
      exact hle
    · intro T hT
      have hxmem : x ∈ sortByDateDesc (filterSince fetchNow (lookupKey disk url) pis) := by
        rw [hsort]; exact List.mem_cons_self _ _
      have hxfil : x ∈ filterSince fetchNow (lookupKey disk url) pis :=
        (mem_sortByDateDesc x _).mp hxmem
      rw [hT] at hxfil
      have hlt : T < itemDate fetchNow x := by
        simp only [filterSince, List.mem_filter, decide_eq_true_eq] at hxfil
        exact hxfil.2
      have hiso : (withFeedMeta (pt.getD fb) url x).isoDate = x.isoDate := rfl
      rw [hiso]
      cases hdate : x.isoDate with
      | some dd =>
        have : itemDate fetchNow x = dd := by simp [itemDate, hdate]
        simp only [Option.getD_some]
        omega
      | none =>
        have : itemDate fetchNow x = fetchNow := by simp [itemDate, hdate]
        simp only [Option.getD_none]
        omega

/-- Concrete instance of claim C1: a feed at watermark 5 fetches one item
dated 7; after the run its cursor entry is 7, which is at least 5. -/
theorem updateCursor_latest_item_monotone_witness :
    (("u", (⟨"Dev.to", [⟨"Hello", "l", some 7, none, none, "Dev.to", "u"⟩]⟩ : ResultEntry))
        ∈ fetchFeeds 10 ⟨.cons (.node "Tech" [⟨"Dev.to", "u"⟩] .nil) .nil⟩ [("u", 5)]
            (fun s => if s = "u" then some (some "Dev.to",
              [⟨"Hello", "l", some 7, none, none, "", ""⟩]) else none)) ∧
    (∃ it rest,
      (⟨"Dev.to", [⟨"Hello", "l", some 7, none, none, "Dev.to", "u"⟩]⟩ : ResultEntry).items
        = it :: rest ∧
      lookupKey (updateCursor 11 [("u", 5)]
          (fetchFeeds 10 ⟨.cons (.node "Tech" [⟨"Dev.to", "u"⟩] .nil) .nil⟩ [("u", 5)]
            (fun s => if s = "u" then some (some "Dev.to",
              [⟨"Hello", "l", some 7, none, none, "", ""⟩]) else none))) "u"
        = some (it.isoDate.getD 11) ∧
      (∀ y ∈ (⟨"Dev.to", [⟨"Hello", "l", some 7, none, none, "Dev.to", "u"⟩]⟩
          : ResultEntry).items, sortKey y ≤ sortKey it) ∧
      (∀ T, lookupKey [("u", 5)] "u" = some T → T ≤ it.isoDate.getD 11)) :=
  ⟨by decide,
    updateCursor_latest_item_monotone 10 11 ⟨.cons (.node "Tech" [⟨"Dev.to", "u"⟩] .nil) .nil⟩
      [("u", 5)]
      (fun s => if s = "u" then some (some "Dev.to",
        [⟨"Hello", "l", some 7, none, none, "", ""⟩]) else none)
      "u" ⟨"Dev.to", [⟨"Hello", "l", some 7, none, none, "Dev.to", "u"⟩]⟩
      (by decide) (by decide)⟩

/-! ### Claim C2: the cursor filter -/

/-- Claim C2 (amended): with a watermark `T`, `getFeedItems` returns no item
whose non-null publish date is at most `T`; an undated returned item implies
the fetch time itself is later than `T`; and when the fetch time is later
than `T`, every undated parsed item is returned (stamped with the feed
metadata) — undated items are treated as published at the fetch time, so
they pass the filter exactly when the watermark is in the past. -/
theorem getFeedItems_filter_correct (now T : Nat) (url fallbackTitle : String)
    (pt : Option String) (pis : List FeedItem) :
    (∀ it ∈ (getFeedItems now url (some T) fallbackTitle pt pis).items,
        ∀ d, it.isoDate = some d → T < d)
    ∧ (∀ it ∈ (getFeedItems now url (some T) fallbackTitle pt pis).items,
        it.isoDate = none → T < now)
    ∧ (T < now → ∀ it ∈ pis, it.isoDate = none →
        withFeedMeta (pt.getD fallbackTitle) url it
          ∈ (getFeedItems now url (some T) fallbackTitle pt pis).items) := by
  have hmem : ∀ y, y ∈ (getFeedItems now url (some T) fallbackTitle pt pis).items ↔
      ∃ x, (x ∈ pis ∧ T < itemDate now x) ∧ withFeedMeta (pt.getD fallbackTitle) url x = y := by
    intro y
    show y ∈ (sortByDateDesc (filterSince now (some T) pis)).map _ ↔ _
    rw [List.mem_map]
    constructor
    · rintro ⟨x, hx, hfx⟩
      have := (mem_sortByDateDesc x _).mp hx
      simp only [filterSince, List.mem_filter, decide_eq_true_eq] at this
      exact ⟨x, this, hfx⟩
    · rintro ⟨x, hx, hfx⟩
      refine ⟨x, (mem_sortByDateDesc x _).mpr ?_, hfx⟩
      simp only [filterSince, List.mem_filter, decide_eq_true_eq]
      exact hx
  refine ⟨?_, ?_, ?_⟩
  · intro it hit d hd
    rcases (hmem it).mp hit with ⟨x, ⟨hx, hlt⟩, hfx⟩
    have hiso : x.isoDate = some d := by
      rw [← hd, ← hfx]
      rfl
    rw [itemDate, hiso, Option.getD_some] at hlt
    exact hlt
  · intro it hit hd
    rcases (hmem it).mp hit with ⟨x, ⟨hx, hlt⟩, hfx⟩
    have hiso : x.isoDate = none := by
      rw [← hd, ← hfx]
      rfl
    rw [itemDate, hiso, Option.getD_none] at hlt
    exact hlt
  · intro hT it hit hd
    refine (hmem _).mpr ⟨it, ⟨hit, ?_⟩, rfl⟩
    rw [itemDate, hd, Option.getD_none]
    exact hT

/-- Concrete instance of claim C2 (amended): with watermark 3 and fetch time
9, the dated item at 2 is dropped, the dated item at 7 is kept, and the
undated parsed item is kept. -/
theorem getFeedItems_filter_correct_witness :
    (3 < 9 ∧ (∀ it ∈ (getFeedItems 9 "u" (some 3) "f" none
        [⟨"a", "la", some 7, none, none, "", ""⟩,
         ⟨"b", "lb", some 2, none, none, "", ""⟩,
         ⟨"c", "lc", none, none, none, "", ""⟩]).items,
        ∀ d, it.isoDate = some d → 3 < d))
    ∧ withFeedMeta "f" "u" ⟨"c", "lc", none, none, none, "", ""⟩
        ∈ (getFeedItems 9 "u" (some 3) "f" none
        [⟨"a", "la", some 7, none, none, "", ""⟩,
         ⟨"b", "lb", some 2, none, none, "", ""⟩,
         ⟨"c", "lc", none, none, none, "", ""⟩]).items :=
  ⟨⟨by decide, (getFeedItems_filter_correct 9 3 "u" "f" none
      [⟨"a", "la", some 7, none, none, "", ""⟩,
       ⟨"b", "lb", some 2, none, none, "", ""⟩,
       ⟨"c", "lc", none, none, none, "", ""⟩]).1⟩,
    (getFeedItems_filter_correct 9 3 "u" "f" none
      [⟨"a", "la", some 7, none, none, "", ""⟩,
       ⟨"b", "lb", some 2, none, none, "", ""⟩,
       ⟨"c", "lc", none, none, none, "", ""⟩]).2.2 (by decide)
      ⟨"c", "lc", none, none, none, "", ""⟩ (by decide) rfl⟩

/-- Counterexample to claim C2 as stated: with watermark 3 and fetch time 2
(a watermark at or after the current clock), an undated parsed item is NOT
included — the result is empty — contradicting that undated items are always
included regardless of T. -/
theorem getFeedItems_drops_undated_with_future_watermark :
    (getFeedItems 2 "u" (some 3) "f" none
      [⟨"c", "lc", none, none, none, "", ""⟩]).items = [] := by decide

/-! ### Claim C4: cursor persisted at most once, only for non-empty results -/

/-- Claim C4: on a normal delivery run the cursor file is written at most
once; it is written exactly when the results map is non-empty; an empty
results map leaves the cursor file untouched with no write; and every entry
of the results map holds at least one item. -/
theorem normal_run_persists_cursor_once (fetchNow updateNow : Nat) (config : FeedConfig)
    (disk : Cursor) (parse : String → Option (Option String × List FeedItem)) :
    (runNormalDelivery fetchNow updateNow config disk parse).cursorWrites ≤ 1
    ∧ ((runNormalDelivery fetchNow updateNow config disk parse).cursorWrites = 1
        ↔ fetchFeeds fetchNow config disk parse ≠ [])
    ∧ (fetchFeeds fetchNow config disk parse = [] →
        (runNormalDelivery fetchNow updateNow config disk parse).finalCursor = disk
        ∧ (runNormalDelivery fetchNow updateNow config disk parse).cursorWrites = 0)
    ∧ (∀ p ∈ fetchFeeds fetchNow config disk parse, p.2.items ≠ []) := by
  refine ⟨?_, ?_, ?_, ?_⟩
  · cases hres : fetchFeeds fetchNow config disk parse with
    | nil => simp [runNormalDelivery, hres]
    | cons hd tl => simp [runNormalDelivery, hres]
  · cases hres : fetchFeeds fetchNow config disk parse with
    | nil => simp [runNormalDelivery, hres]
    | cons hd tl => simp [runNormalDelivery, hres]
  · intro hres
    simp [runNormalDelivery, hres]
  · intro p hp
    obtain ⟨k, e⟩ := p
    obtain ⟨_, _, _, _, _, _, hne⟩ :=
      fetchFeeds_entry_spec fetchNow config disk parse k e hp
    exact hne

/-- Concrete instance of claim C4: one feed returning one item gives a
single cursor write; the entry holds one item. -/
theorem normal_run_persists_cursor_once_witness :
    ((runNormalDelivery 10 11 ⟨.cons (.node "Tech" [⟨"Dev.to", "u"⟩] .nil) .nil⟩ [("u", 5)]
        (fun s => if s = "u" then some (some "Dev.to",
          [⟨"Hello", "l", some 7, none, none, "", ""⟩]) else none)).cursorWrites ≤ 1)
    ∧ (((runNormalDelivery 10 11 ⟨.cons (.node "Tech" [⟨"Dev.to", "u"⟩] .nil) .nil⟩ [("u", 5)]
        (fun s => if s = "u" then some (some "Dev.to",
          [⟨"Hello", "l", some 7, none, none, "", ""⟩]) else none)).cursorWrites = 1)
        ↔ fetchFeeds 10 ⟨.cons (.node "Tech" [⟨"Dev.to", "u"⟩] .nil) .nil⟩ [("u", 5)]
            (fun s => if s = "u" then some (some "Dev.to",
              [⟨"Hello", "l", some 7, none, none, "", ""⟩]) else none) ≠ []) :=
  ⟨(normal_run_persists_cursor_once 10 11 ⟨.cons (.node "Tech" [⟨"Dev.to", "u"⟩] .nil) .nil⟩
      [("u", 5)] (fun s => if s = "u" then some (some "Dev.to",
        [⟨"Hello", "l", some 7, none, none, "", ""⟩]) else none)).1,
    (normal_run_persists_cursor_once 10 11 ⟨.cons (.node "Tech" [⟨"Dev.to", "u"⟩] .nil) .nil⟩
      [("u", 5)] (fun s => if s = "u" then some (some "Dev.to",
        [⟨"Hello", "l", some 7, none, none, "", ""⟩]) else none)).2.1⟩

/-! ### Claim C5: confirmation gate of the cursor-only mode -/

/-- Claim C5: in cursor-only mode with an existing cursor file and a
non-empty results map, the first event is the interactive confirmation
prompt — it precedes any cursor mutation — and a declining answer means no
cursor write happens and the cursor file contents are unchanged. -/
theorem cursor_only_update_requires_confirmation (now : Nat) (results : FeedResults)
    (disk : Cursor) (answer : String) (hres : results ≠ []) :
    (handleCursorOnlyUpdate now results disk true answer).1.head?
      = some CursorOnlyEvent.confirmationPrompt
    ∧ (confirms answer = false →
        CursorOnlyEvent.cursorWrite ∉ (handleCursorOnlyUpdate now results disk true answer).1
        ∧ (handleCursorOnlyUpdate now results disk true answer).2 = disk) := by
  have hlen : results.length > 0 := List.length_pos.mpr hres
  cases hc : confirms answer with
  | true =>
    refine ⟨?_, ?_⟩
    · simp [handleCursorOnlyUpdate, hlen, hc]
    · intro hfalse
      exact absurd hfalse (by simp)
  | false =>
    refine ⟨?_, fun _ => ⟨?_, ?_⟩⟩ <;> simp [handleCursorOnlyUpdate, hlen, hc]

/-- Concrete instance of claim C5: against an existing cursor file, answer
`"n"` leaves the cursor file unchanged, and the prompt comes first. -/
theorem cursor_only_update_requires_confirmation_witness :
    (handleCursorOnlyUpdate 9 [("u", ⟨"T", [⟨"t", "l", some 7, none, none, "T", "u"⟩]⟩)]
        [("u", 5)] true "n").1.head? = some CursorOnlyEvent.confirmationPrompt
    ∧ (confirms "n" = false →
        CursorOnlyEvent.cursorWrite
            ∉ (handleCursorOnlyUpdate 9 [("u", ⟨"T", [⟨"t", "l", some 7, none, none, "T", "u"⟩]⟩)]
                [("u", 5)] true "n").1
        ∧ (handleCursorOnlyUpdate 9 [("u", ⟨"T", [⟨"t", "l", some 7, none, none, "T", "u"⟩]⟩)]
            [("u", 5)] true "n").2 = [("u", 5)]) :=
  cursor_only_update_requires_confirmation 9
    [("u", ⟨"T", [⟨"t", "l", some 7, none, none, "T", "u"⟩]⟩)] [("u", 5)] "n" (by decide)

/-! ### Claim C6: delivery subject format -/

theorem findGroupPathForFeed_ne_empty (url : String) (config : FeedConfig) :
    findGroupPathForFeed url config ≠ "" := by
  unfold findGroupPathForFeed
  cases h : searchGroups url "" config.groups with
  | none => decide
  | some p =>
    by_cases hp : p = ""
    · simp [hp]
    · simp [hp]

theorem formatGroupHierarchy_eq_join (p : String) (hp : p ≠ "") :
    formatGroupHierarchyForSubject p
      = String.join ((splitOnChar '/' p).map groupBracket) := by
  by_cases hu : p = "Uncategorized"
  · subst hu
    decide
  · unfold formatGroupHierarchyForSubject
    rw [if_neg]
    simp [hp, hu]

theorem extractItems_fold_mem (config : FeedConfig) (flag : Bool)
    (ff : String → Option String) :
    ∀ (l : FeedResults) (acc : List DeliverableItem) (d : DeliverableItem),
      d ∈ l.foldl (fun items e =>
        if e.2.items.isEmpty then items
        else items ++ e.2.items.map (mkDeliverable config flag ff e.1)) acc →
      d ∈ acc ∨ ∃ url r, (url, r) ∈ l ∧
        ∃ item0 ∈ r.items, d = mkDeliverable config flag ff url item0 := by
  intro l
  induction l with
  | nil =>
    intro acc d h
    exact Or.inl h
  | cons e tl ih =>
    intro acc d h
    obtain ⟨url, r⟩ := e
    rcases ih _ d h with hacc | ⟨url', r', hmem, item0, hitem, hd⟩
    · change d ∈ (if r.items.isEmpty then acc
        else acc ++ r.items.map (mkDeliverable config flag ff url)) at hacc
      by_cases hempty : r.items.isEmpty
      · rw [if_pos hempty] at hacc
        exact Or.inl hacc
      · rw [if_neg hempty] at hacc
        rcases List.mem_append.mp hacc with h1 | h1
        · exact Or.inl h1
        · rcases List.mem_map.mp h1 with ⟨item0, hitem, hd⟩
          exact Or.inr ⟨url, r, List.mem_cons_self _ _, item0, hitem, hd.symm⟩
    · exact Or.inr ⟨url', r', List.mem_cons_of_mem _ hmem, item0, hitem, hd⟩

/-- Claim C6: every deliverable's subject is the bracketed segments of its
feed's resolved group path, concatenated with no separator, then a space,
the feed title, a colon-space, and the item title; a URL found in no group
resolves to the sentinel path, whose one segment renders the prefix
`"[Uncategorized]"`. -/
theorem delivery_subject_format (results : FeedResults) (config : FeedConfig)
    (flag : Bool) (ff : String → Option String) :
    (∀ d ∈ extractItemsFromFeeds results config flag ff,
      (∃ url r, (url, r) ∈ results ∧ d.groupPath = findGroupPathForFeed url config)
      ∧ d.subject = String.join ((splitOnChar '/' d.groupPath).map groupBracket)
          ++ " " ++ d.item.feedTitle ++ ": " ++ d.item.title)
    ∧ (∀ url, searchGroups url "" config.groups = none →
        splitOnChar '/' (findGroupPathForFeed url config) = ["Uncategorized"]) := by
  constructor
  · intro d hd
    rcases extractItems_fold_mem config flag ff results [] d hd with h | h
    · simp at h
    · obtain ⟨url, r, hmem, item0, hitem, hmk⟩ := h
      have hgp : d.groupPath = findGroupPathForFeed url config := by
        rw [hmk]; rfl
      refine ⟨⟨url, r, hmem, hgp⟩, ?_⟩
      have hsub : d.subject
          = formatGroupHierarchyForSubject (findGroupPathForFeed url config)
            ++ " " ++ d.item.feedTitle ++ ": " ++ d.item.title := by
        rw [hmk]; rfl
      rw [hsub, hgp, formatGroupHierarchy_eq_join _ (findGroupPathForFeed_ne_empty url config)]
  · intro url h
    unfold findGroupPathForFeed
    rw [h]
    decide

/-- Concrete instance of claim C6: a feed nested two groups deep gets the
subject `"[Tech][Prog] Dev.to: Hello"`. -/
theorem delivery_subject_format_witness :
    ((⟨⟨"Hello", "l", some 7, none, none, "Dev.to", "u"⟩,
        "[Tech][Prog] Dev.to: Hello", "Tech/Prog"⟩ : DeliverableItem)
      ∈ extractItemsFromFeeds
          [("u", ⟨"Dev.to", [⟨"Hello", "l", some 7, none, none, "Dev.to", "u"⟩]⟩)]
          ⟨.cons (.node "Tech" [] (.cons (.node "Prog" [⟨"Dev.to", "u"⟩] .nil) .nil)) .nil⟩
          false (fun _ => none))
    ∧ ((∃ url r, (url, r) ∈
          [("u", (⟨"Dev.to", [⟨"Hello", "l", some 7, none, none, "Dev.to", "u"⟩]⟩
            : ResultEntry))] ∧
          ("Tech/Prog" : String) = findGroupPathForFeed url
            ⟨.cons (.node "Tech" [] (.cons (.node "Prog" [⟨"Dev.to", "u"⟩] .nil) .nil)) .nil⟩)
      ∧ ("[Tech][Prog] Dev.to: Hello" : String)
          = String.join ((splitOnChar '/' "Tech/Prog").map groupBracket)
            ++ " " ++ "Dev.to" ++ ": " ++ "Hello") :=
  ⟨by decide,
    (delivery_subject_format
        [("u", ⟨"Dev.to", [⟨"Hello", "l", some 7, none, none, "Dev.to", "u"⟩]⟩)]
        ⟨.cons (.node "Tech" [] (.cons (.node "Prog" [⟨"Dev.to", "u"⟩] .nil) .nil)) .nil⟩
        false (fun _ => none)).1
      ⟨⟨"Hello", "l", some 7, none, none, "Dev.to", "u"⟩,
        "[Tech][Prog] Dev.to: Hello", "Tech/Prog"⟩
      (by decide)⟩

/-! ### Claim C9: the certificate-error retry of getFeedItems -/

/-- Claim C9 (code behavior at the failing input): the certificate-error
retry carries no attempt counter.  When every parse call raises the
certificate alt-name error the recursion returns at no modelled depth (the
call never terminates); and when the error occurs on the first two calls and
the third succeeds, three parse calls are made — two retries, not at most
one. -/
theorem getFeedItems_cert_retry_unbounded :
    (∀ fuel callIdx,
      getFeedItemsRetry 0 "u" none "fb" (fun _ => ParseOutcome.certAltNameError)
        fuel callIdx = none)
    ∧ getFeedItemsRetry 0 "u" none "fb"
        (fun k => if k < 2 then ParseOutcome.certAltNameError
          else ParseOutcome.success none []) 10 0
      = some (.ok ⟨"u", "fb", []⟩, 3) := by
  constructor
  · intro fuel
    induction fuel with
    | zero => intro callIdx; rfl
    | succ n ih => intro callIdx; exact ih (callIdx + 1)
  · rfl

/-! ### Claim C7: leaf filter subject versus delivery subject -/

/-- Claim C7 (code behavior at the failing input): for the single feed
`Dev.to` in group `Tech`, label provisioning creates the one leaf rule with
subject criterion `"[Tech]: Dev.to"`, while the delivery pipeline subjects
for that feed read `"[Tech] Dev.to: Hello"`; the criterion is not a prefix
of the delivery subject — indeed not even a substring of it. -/
theorem leaf_filter_subject_mismatch :
    (createFeedFilters "rss@example.com"
        ((labelMapOf (fun _ fallback => fallback)
            ⟨.cons (.node "Tech" [⟨"Dev.to", "u"⟩] .nil) .nil⟩).map LabelEntry.path) []
      = [⟨some "[Tech]: Dev.to", "rss@example.com", "RSS Feeds/Tech/Dev.to", true⟩])
    ∧ ((extractItemsFromFeeds
          [("u", ⟨"Dev.to", [⟨"Hello", "l", some 7, none, none, "Dev.to", "u"⟩]⟩)]
          ⟨.cons (.node "Tech" [⟨"Dev.to", "u"⟩] .nil) .nil⟩ false
          (fun _ => none)).map DeliverableItem.subject
        = ["[Tech] Dev.to: Hello"])
    ∧ ¬ ("[Tech]: Dev.to".data <+: "[Tech] Dev.to: Hello".data)
    ∧ ¬ ("[Tech]: Dev.to".data <:+: "[Tech] Dev.to: Hello".data) := by
  refine ⟨by decide, by decide, by decide, by decide⟩

/-! ### Claim C8: which paths get group rules -/

/-- Counterexample to claim C8 as stated: for a group `A` whose only
descendant is the empty subgroup `B` — so `A` has no descendant feed label —
`createGroupFilters` nevertheless creates a group rule for `A`. -/
theorem group_filter_without_feed_descendant :
    ((createGroupFilters "rss@example.com"
        ((labelMapOf (fun _ fallback => fallback)
            ⟨.cons (.node "A" [] (.cons (.node "B" [] .nil) .nil)) .nil⟩).map
          LabelEntry.path) []).map GmailFilter.appliesLabel
      = ["RSS Feeds/A"])
    ∧ hasDescendantFeedLabel
        (labelMapOf (fun _ fallback => fallback)
          ⟨.cons (.node "A" [] (.cons (.node "B" [] .nil) .nil)) .nil⟩)
        "RSS Feeds/A" = false := by
  refine ⟨by decide, by decide⟩

theorem groupFilterStep_skip (fromEmail : String) (existing : List String)
    (acc : List GmailFilter) (p : String) (h : (stripRoot p).isEmpty = true) :
    groupFilterStep fromEmail existing acc p = acc := by
  simp [groupFilterStep, h]

theorem groupFilterStep_new (fromEmail : String) (acc : List GmailFilter) (p : String)
    (h : (stripRoot p).isEmpty = false) :
    groupFilterStep fromEmail [] acc p
      = acc ++ [⟨some (groupFilterSubject (stripRoot p)), fromEmail, p, false⟩] := by
  simp [groupFilterStep, h]

theorem createGroupFilters_no_existing (fromEmail : String) (labelPaths : List String) :
    createGroupFilters fromEmail labelPaths []
      = ((labelPaths.filter (hasChildPath labelPaths)).filter
            (fun p => !(stripRoot p).isEmpty)).map
          (fun p => ⟨some (groupFilterSubject (stripRoot p)), fromEmail, p, false⟩) := by
  unfold createGroupFilters
  generalize labelPaths.filter (hasChildPath labelPaths) = l
  suffices h : ∀ acc : List GmailFilter,
      l.foldl (groupFilterStep fromEmail []) acc
      = acc ++ (l.filter (fun p => !(stripRoot p).isEmpty)).map
          (fun p => ⟨some (groupFilterSubject (stripRoot p)), fromEmail, p, false⟩) by
    simpa using h []
  induction l with
  | nil => intro acc; simp
  | cons p tl ih =>
    intro acc
    rw [List.foldl_cons, List.filter_cons]
    cases hempty : (stripRoot p).isEmpty with
    | true =>
      rw [groupFilterStep_skip fromEmail [] acc p hempty, ih]
      simp [hempty]
    | false =>
      rw [groupFilterStep_new fromEmail acc p hempty, ih]
      simp [hempty]

/-- Claim C8 (amended): with no pre-existing filters, a group rule is
created exactly for the non-root label paths that have at least one
descendant label path of ANY kind in the map (a slash-extension that does
not end in a slash) — not only those with a descendant feed label; every
created group rule applies its own path's label with the bracketed group
subject and does not remove INBOX. -/
theorem group_rules_exactly_for_parent_paths (fromEmail : String)
    (labelPaths : List String) :
    (∀ p : String,
      (∃ f ∈ createGroupFilters fromEmail labelPaths [], f.appliesLabel = p) ↔
        (p ∈ labelPaths ∧ stripRoot p ≠ [] ∧
          ∃ q ∈ labelPaths, q ≠ p ∧ strStartsWith q (p ++ "/") = true
            ∧ strEndsWith q "/" = false))
    ∧ (∀ f ∈ createGroupFilters fromEmail labelPaths [],
        f.removesInbox = false
        ∧ f.subjectCriterion = some (groupFilterSubject (stripRoot f.appliesLabel))
        ∧ f.fromCriterion = fromEmail) := by
  rw [createGroupFilters_no_existing]
  constructor
  · intro p
    constructor
    · rintro ⟨f, hf, hlabel⟩
      rcases List.mem_map.mp hf with ⟨p', hp', hmk⟩
      have hpp : p' = p := by
        rw [← hlabel, ← hmk]
      subst hpp
      rcases List.mem_filter.mp hp' with ⟨hp1, hb⟩
      rcases List.mem_filter.mp hp1 with ⟨hmem, hchild⟩
      refine ⟨hmem, by simpa using hb, ?_⟩
      rcases List.any_eq_true.mp hchild with ⟨q, hq, hcond⟩
      simp only [Bool.and_eq_true, decide_eq_true_eq, Bool.not_eq_true'] at hcond
      exact ⟨q, hq, hcond.1.1, hcond.1.2, hcond.2⟩
    · rintro ⟨hmem, hne, q, hq, hqp, hsw, hew⟩
      refine ⟨⟨some (groupFilterSubject (stripRoot p)), fromEmail, p, false⟩,
        List.mem_map_of_mem _ ?_, rfl⟩
      refine List.mem_filter.mpr ⟨List.mem_filter.mpr ⟨hmem, ?_⟩, by simpa using hne⟩
      exact List.any_eq_true.mpr ⟨q, hq, by
        simp only [Bool.and_eq_true, decide_eq_true_eq, Bool.not_eq_true']
        exact ⟨⟨hqp, hsw⟩, hew⟩⟩
  · intro f hf
    rcases List.mem_map.mp hf with ⟨p', _, hmk⟩
    rw [← hmk]
    exact ⟨rfl, rfl, rfl⟩

/-- Concrete instance of claim C8 (amended): `"RSS Feeds/A"` has the child
path `"RSS Feeds/A/B"`, so its group rule exists, applies its label with
subject `"[A]"` and does not remove INBOX. -/
theorem group_rules_exactly_for_parent_paths_witness :
    ((⟨some "[A]", "e", "RSS Feeds/A", false⟩ : GmailFilter)
        ∈ createGroupFilters "e" ["RSS Feeds/A", "RSS Feeds/A/B"] [])
    ∧ ((⟨some "[A]", "e", "RSS Feeds/A", false⟩ : GmailFilter).removesInbox = false
      ∧ (⟨some "[A]", "e", "RSS Feeds/A", false⟩ : GmailFilter).subjectCriterion
          = some (groupFilterSubject
              (stripRoot (⟨some "[A]", "e", "RSS Feeds/A", false⟩ : GmailFilter).appliesLabel))
      ∧ (⟨some "[A]", "e", "RSS Feeds/A", false⟩ : GmailFilter).fromCriterion = "e") :=
  ⟨by decide,
    (group_rules_exactly_for_parent_paths "e" ["RSS Feeds/A", "RSS Feeds/A/B"]).2
      ⟨some "[A]", "e", "RSS Feeds/A", false⟩ (by decide)⟩

end RssFeedMail
